import Mathlib

/-!
Shallow embedding of the hybrid verse-resolution engine of
`backend/app/verse_matcher.py` and of the text normalizer of
`backend/app/bible_data.py` (repository `tiwa-codes/scripture-sync`).

Modelling conventions:
* Python `str` values are `List Char`, restricted to the ASCII behaviour of
  `str.lower`, `\w`, `\s` (all corpus texts and queries in the repository are
  ASCII).
* Python floats are modelled by `ℚ` (exact arithmetic).
* The SQL store is a `List Verse` parameter: a `SELECT` without `ORDER BY`
  yields the stored row order, `ORDER BY embedding_index` yields the sorted
  order.
* The external collaborators (RapidFuzz `fuzz.partial_ratio`, the sentence
  embedder and the FAISS index) are abstract components carried in the
  matcher state.
* Wall-clock latency (the third component of the Python result tuple) is
  dropped: it is nondeterministic and no claim depends on its value.
-/

namespace ScriptureSync

/-- Python `\s` on the ASCII fragment: space, tab, LF, CR, VT, FF. -/
def isPySpace (c : Char) : Bool :=
  decide (c.toNat = 32 ∨ c.toNat = 9 ∨ c.toNat = 10 ∨ c.toNat = 13 ∨
    c.toNat = 11 ∨ c.toNat = 12)

/-- ASCII uppercase letter `A`-`Z`. -/
def isAsciiUpper (c : Char) : Bool :=
  decide (65 ≤ c.toNat ∧ c.toNat ≤ 90)

/-- ASCII lowercase letter `a`-`z`. -/
def isAsciiLower (c : Char) : Bool :=
  decide (97 ≤ c.toNat ∧ c.toNat ≤ 122)

/-- ASCII letter, either case (regex class `[A-Za-z]`). -/
def isAsciiLetter (c : Char) : Bool :=
  isAsciiUpper c || isAsciiLower c

/-- ASCII digit `0`-`9` (regex class `\d`). -/
def isAsciiDigit (c : Char) : Bool :=
  decide (48 ≤ c.toNat ∧ c.toNat ≤ 57)

/-- ASCII alphanumeric (regex class `[A-Za-z0-9]`). -/
def isAsciiAlnum (c : Char) : Bool :=
  isAsciiLetter c || isAsciiDigit c

/-- Python `\w` on the ASCII fragment: letters, digits and the underscore
(code point 95). -/
def isWordChar (c : Char) : Bool :=
  isAsciiAlnum c || decide (c.toNat = 95)

/-- Applying `Char.ofNatAux` keeps the code point. -/
theorem toNat_ofNatAux (n : ℕ) (h : n.isValidChar) :
    (Char.ofNatAux n h).toNat = n := rfl

/-- Applying `Char.ofNat` keeps a valid code point. -/
theorem toNat_ofNat_of_valid {n : ℕ} (h : n.isValidChar) :
    (Char.ofNat n).toNat = n := by
  unfold Char.ofNat
  rw [dif_pos h]
  rfl

/-- Code point of `Char.toLower` at an ASCII uppercase letter. -/
theorem toLower_toNat_of_upper {c : Char} (h : 65 ≤ c.toNat ∧ c.toNat ≤ 90) :
    (Char.toLower c).toNat = c.toNat + 32 := by
  unfold Char.toLower
  rw [if_pos ⟨h.1, h.2⟩]
  exact toNat_ofNat_of_valid (Or.inl (by omega))

/-- The map `Char.toLower` fixes everything but ASCII uppercase letters. -/
theorem toLower_eq_of_not_upper {c : Char} (h : ¬(65 ≤ c.toNat ∧ c.toNat ≤ 90)) :
    Char.toLower c = c := by
  unfold Char.toLower
  rw [if_neg (by exact fun hc => h ⟨hc.1, hc.2⟩)]

/-- Lowercasing is idempotent on the ASCII fragment. -/
theorem toLower_toLower (c : Char) : Char.toLower (Char.toLower c) = Char.toLower c := by
  by_cases h : 65 ≤ c.toNat ∧ c.toNat ≤ 90
  · have h1 := toLower_toNat_of_upper h
    exact toLower_eq_of_not_upper (by omega)
  · rw [toLower_eq_of_not_upper h]
    exact toLower_eq_of_not_upper h

/-- Lowercasing preserves word-character status. -/
theorem isWordChar_toLower (c : Char) : isWordChar (Char.toLower c) = isWordChar c := by
  by_cases h : 65 ≤ c.toNat ∧ c.toNat ≤ 90
  · have h1 := toLower_toNat_of_upper h
    have hc : isWordChar c = true := by
      simp only [isWordChar, isAsciiAlnum, isAsciiLetter, isAsciiUpper, isAsciiLower,
        isAsciiDigit, Bool.or_eq_true, decide_eq_true_eq]
      omega
    have hl : isWordChar (Char.toLower c) = true := by
      simp only [isWordChar, isAsciiAlnum, isAsciiLetter, isAsciiUpper, isAsciiLower,
        isAsciiDigit, Bool.or_eq_true, decide_eq_true_eq, h1]
      omega
    rw [hc, hl]
  · rw [toLower_eq_of_not_upper h]

/-- Lowercasing preserves whitespace status. -/
theorem isPySpace_toLower (c : Char) : isPySpace (Char.toLower c) = isPySpace c := by
  by_cases h : 65 ≤ c.toNat ∧ c.toNat ≤ 90
  · have h1 := toLower_toNat_of_upper h
    have ha : isPySpace (Char.toLower c) = false := by
      simp only [isPySpace, h1, decide_eq_false_iff_not]
      omega
    have hb : isPySpace c = false := by
      simp only [isPySpace, decide_eq_false_iff_not]
      omega
    rw [ha, hb]
  · rw [toLower_eq_of_not_upper h]

/-- A word character is never whitespace. -/
theorem not_isPySpace_of_isWordChar {c : Char} (h : isWordChar c = true) :
    isPySpace c = false := by
  simp only [isWordChar, isAsciiAlnum, isAsciiLetter, isAsciiUpper, isAsciiLower,
    isAsciiDigit, Bool.or_eq_true, decide_eq_true_eq] at h
  simp only [isPySpace, decide_eq_false_iff_not]
  omega

/-- Python `str.lower()`: character-wise ASCII lowercasing (line 98 of
`bible_data.py`). -/
def pyLower (l : List Char) : List Char := l.map Char.toLower

/-- Python `re.sub(r'[^\w\s]', ' ', text)`: every character that is neither a word
character nor whitespace becomes one space (line 99 of `bible_data.py`). -/
def pySubNonWord (l : List Char) : List Char :=
  l.map fun c => if isWordChar c || isPySpace c then c else ' '

/-- Worker for `collapseWS`; the flag records whether the previous character
was part of a whitespace run already replaced by one space. -/
def collapseWSAux : List Char → Bool → List Char
  | [], _ => []
  | c :: rest, inRun =>
    if isPySpace c then
      if inRun then collapseWSAux rest true
      else ' ' :: collapseWSAux rest true
    else c :: collapseWSAux rest false

/-- Python `re.sub(r'\s+', ' ', text)`: each maximal whitespace run becomes a single
space (line 100 of `bible_data.py`). -/
def collapseWS (l : List Char) : List Char := collapseWSAux l false

/-- Drops trailing whitespace; the result is a prefix of the input. -/
def dropTrailingWS : List Char → List Char
  | [] => []
  | c :: rest =>
    match dropTrailingWS rest with
    | [] => if isPySpace c then [] else [c]
    | r => c :: r

/-- Python `str.strip()`: removes leading and trailing whitespace. -/
def pyStrip (l : List Char) : List Char :=
  dropTrailingWS (l.dropWhile isPySpace)

/-- Embeds `normalize_text` of `bible_data.py` (lines 96-101): lowercase, replace
non-word non-space characters by a space, collapse whitespace runs, strip. -/
def normalizeText (l : List Char) : List Char :=
  pyStrip (collapseWS (pySubNonWord (pyLower l)))

/-- Does `n` occur at the head of `hay`? -/
def headMatch : List Char → List Char → Bool
  | [], _ => true
  | _ :: _, [] => false
  | a :: as, b :: bs => a = b && headMatch as bs

/-- Python substring containment `n in hay` for strings. -/
def pyIn (n : List Char) : List Char → Bool
  | [] => n.isEmpty
  | b :: t => headMatch n (b :: t) || pyIn n t

/-- Embeds `VerseMatcher.exact_match` (lines 61-78 of `verse_matcher.py`). -/
def exactMatch (query verseText : List Char) : ℚ :=
  let qn := normalizeText query
  let vn := normalizeText verseText
  if qn = [] ∨ vn = [] then 0
  else if pyIn qn vn then (qn.length : ℚ) / (vn.length : ℚ)
  else if pyIn vn qn then (vn.length : ℚ) / (qn.length : ℚ) * 0.9
  else 0

/-- The weighted blend of lines 173-179 of `verse_matcher.py`; the flag is
`using_embeddings` (line 159). -/
def combinedScore (usingEmb : Bool) (exact fuzzy semantic : ℚ) : ℚ :=
  if usingEmb then
    if exact > 0.5 then 0.5 * exact + 0.3 * fuzzy + 0.2 * semantic
    else 0.2 * exact + 0.5 * fuzzy + 0.3 * semantic
  else 0.3 * exact + 0.7 * fuzzy

/-! Canonical-form machinery for `normalizeText`. -/

/-- Every whitespace character of the list is the plain space. -/
def WSisSpace (l : List Char) : Prop := ∀ c ∈ l, isPySpace c = true → c = ' '

/-- No two adjacent whitespace characters. -/
def NoAdjWS : List Char → Prop
  | [] => True
  | [_] => True
  | a :: b :: rest => ¬(isPySpace a = true ∧ isPySpace b = true) ∧ NoAdjWS (b :: rest)

/-- The head, when present, is not whitespace. -/
def headNotWS (l : List Char) : Prop :=
  ∀ c, l.head? = some c → isPySpace c = false

/-- The last element, when present, is not whitespace. -/
def LastNotWS : List Char → Prop
  | [] => True
  | [c] => isPySpace c = false
  | _ :: b :: rest => LastNotWS (b :: rest)

theorem noAdjWS_cons {a : Char} {l : List Char} :
    NoAdjWS (a :: l) ↔
      (∀ b, l.head? = some b → ¬(isPySpace a = true ∧ isPySpace b = true)) ∧ NoAdjWS l := by
  cases l with
  | nil => simp [NoAdjWS]
  | cons b t => simp [NoAdjWS]

theorem noAdjWS_tail {a : Char} {l : List Char} (h : NoAdjWS (a :: l)) : NoAdjWS l :=
  (noAdjWS_cons.mp h).2

theorem collapseWSAux_mem {l : List Char} {b : Bool} {c : Char}
    (h : c ∈ collapseWSAux l b) : c = ' ' ∨ (c ∈ l ∧ isPySpace c = false) := by
  induction l generalizing b with
  | nil => simp [collapseWSAux] at h
  | cons a t ih =>
    by_cases ha : isPySpace a = true
    · cases b with
      | true =>
        simp only [collapseWSAux, ha, if_true] at h
        rcases ih h with h1 | h2
        · exact Or.inl h1
        · exact Or.inr ⟨List.mem_cons_of_mem _ h2.1, h2.2⟩
      | false =>
        simp only [collapseWSAux, ha, if_true] at h
        rcases List.mem_cons.mp h with h1 | h1
        · exact Or.inl h1
        · rcases ih h1 with h2 | h3
          · exact Or.inl h2
          · exact Or.inr ⟨List.mem_cons_of_mem _ h3.1, h3.2⟩
    · have ha' : isPySpace a = false := by
        exact Bool.not_eq_true _ ▸ eq_false_of_ne_true ha
      simp only [collapseWSAux, ha', Bool.false_eq_true, if_false] at h
      rcases List.mem_cons.mp h with h1 | h1
      · exact Or.inr ⟨h1 ▸ List.mem_cons_self a t, h1 ▸ ha'⟩
      · rcases ih h1 with h2 | h3
        · exact Or.inl h2
        · exact Or.inr ⟨List.mem_cons_of_mem _ h3.1, h3.2⟩

theorem collapseWSAux_wf (l : List Char) (b : Bool) :
    WSisSpace (collapseWSAux l b) ∧ NoAdjWS (collapseWSAux l b) ∧
      (b = true → headNotWS (collapseWSAux l b)) := by
  induction l generalizing b with
  | nil =>
    refine ⟨?_, ?_, ?_⟩
    · intro c hc; simp [collapseWSAux] at hc
    · simp [collapseWSAux, NoAdjWS]
    · intro _ c hc; simp [collapseWSAux] at hc
  | cons a t ih =>
    by_cases ha : isPySpace a = true
    · cases b with
      | true =>
        simpa only [collapseWSAux, ha, if_true] using ih true
      | false =>
        have ihw := ih true
        refine ⟨?_, ?_, ?_⟩
        · intro c hc hws
          simp only [collapseWSAux, ha, if_true, Bool.false_eq_true, if_false] at hc
          rcases List.mem_cons.mp hc with h1 | h1
          · exact h1
          · exact ihw.1 c h1 hws
        · simp only [collapseWSAux, ha, if_true, Bool.false_eq_true, if_false]
          rw [noAdjWS_cons]
          refine ⟨?_, ihw.2.1⟩
          intro d hd hcontra
          have := ihw.2.2 rfl d hd
          rw [this] at hcontra
          exact Bool.false_ne_true hcontra.2
        · intro hb; cases hb
    · have ha' : isPySpace a = false := by
        exact Bool.not_eq_true _ ▸ eq_false_of_ne_true ha
      have ihf := ih false
      refine ⟨?_, ?_, ?_⟩
      · intro c hc hws
        simp only [collapseWSAux, ha', Bool.false_eq_true, if_false] at hc
        rcases List.mem_cons.mp hc with h1 | h1
        · rw [h1] at hws; rw [hws] at ha'; cases ha'
        · exact ihf.1 c h1 hws
      · simp only [collapseWSAux, ha', Bool.false_eq_true, if_false]
        rw [noAdjWS_cons]
        refine ⟨?_, ihf.2.1⟩
        intro d _ hcontra
        rw [ha'] at hcontra
        exact Bool.false_ne_true hcontra.1
      · intro _ c hc
        simp only [collapseWSAux, ha', Bool.false_eq_true, if_false, List.head?_cons,
          Option.some.injEq] at hc
        rw [← hc]
        exact ha'

theorem collapseWSAux_fixed (l : List Char) (h1 : WSisSpace l) (h2 : NoAdjWS l) :
    collapseWSAux l false = l ∧ (headNotWS l → collapseWSAux l true = l) := by
  induction l with
  | nil => exact ⟨rfl, fun _ => rfl⟩
  | cons a t ih =>
    have h1t : WSisSpace t := fun c hc => h1 c (List.mem_cons_of_mem _ hc)
    have h2t : NoAdjWS t := noAdjWS_tail h2
    have iht := ih h1t h2t
    by_cases ha : isPySpace a = true
    · have haSp : a = ' ' := h1 a (List.mem_cons_self a t) ha
      have hhead : headNotWS t := by
        intro d hd
        have := (noAdjWS_cons.mp h2).1 d hd
        by_cases hws : isPySpace d = true
        · exact absurd ⟨ha, hws⟩ this
        · exact Bool.not_eq_true _ ▸ eq_false_of_ne_true hws
      constructor
      · simp only [collapseWSAux, ha, if_true, Bool.false_eq_true, if_false]
        rw [iht.2 hhead, haSp]
      · intro hh
        have := hh a (by rw [List.head?_cons])
        rw [ha] at this; cases this
    · have ha' : isPySpace a = false := by
        exact Bool.not_eq_true _ ▸ eq_false_of_ne_true ha
      constructor
      · simp only [collapseWSAux, ha', Bool.false_eq_true, if_false]
        rw [iht.1]
      · intro _
        simp only [collapseWSAux, ha', Bool.false_eq_true, if_false]
        rw [iht.1]

theorem headNotWS_dropWhile (l : List Char) : headNotWS (l.dropWhile isPySpace) := by
  induction l with
  | nil => intro c hc; simp at hc
  | cons a t ih =>
    by_cases ha : isPySpace a = true
    · simpa only [List.dropWhile_cons, ha, if_true] using ih
    · have ha' : isPySpace a = false := by
        exact Bool.not_eq_true _ ▸ eq_false_of_ne_true ha
      intro c hc
      simp only [List.dropWhile_cons, ha', Bool.false_eq_true, if_false,
        List.head?_cons, Option.some.injEq] at hc
      rw [← hc]; exact ha'

theorem mem_dropWhileWS {c : Char} : ∀ {l : List Char}, c ∈ l.dropWhile isPySpace → c ∈ l := by
  intro l
  induction l with
  | nil => intro h; exact h
  | cons a t ih =>
    intro h
    by_cases ha : isPySpace a = true
    · rw [List.dropWhile_cons, if_pos ha] at h
      exact List.mem_cons_of_mem _ (ih h)
    · have ha' : isPySpace a = false := by
        exact Bool.not_eq_true _ ▸ eq_false_of_ne_true ha
      rw [List.dropWhile_cons, if_neg (by rw [ha']; exact Bool.false_ne_true)] at h
      exact h

theorem noAdjWS_dropWhile {l : List Char} (h : NoAdjWS l) :
    NoAdjWS (l.dropWhile isPySpace) := by
  induction l with
  | nil => simpa using h
  | cons a t ih =>
    by_cases ha : isPySpace a = true
    · rw [List.dropWhile_cons, if_pos ha]
      exact ih (noAdjWS_tail h)
    · rw [List.dropWhile_cons, if_neg (by simp [eq_false_of_ne_true ha])]
      exact h

theorem dropWhileWS_fixed {l : List Char} (h : headNotWS l) :
    l.dropWhile isPySpace = l := by
  cases l with
  | nil => rfl
  | cons a t =>
    have := h a (by rw [List.head?_cons])
    rw [List.dropWhile_cons, if_neg (by rw [this]; exact Bool.false_ne_true)]

theorem head?_dropTrailingWS {l : List Char} {c : Char}
    (h : (dropTrailingWS l).head? = some c) : l.head? = some c := by
  cases l with
  | nil => simp [dropTrailingWS] at h
  | cons a t =>
    cases hr : dropTrailingWS t with
    | nil =>
      by_cases ha : isPySpace a = true
      · simp [dropTrailingWS, hr, ha] at h
      · simp only [dropTrailingWS, hr] at h
        rw [if_neg (by simp [eq_false_of_ne_true ha])] at h
        simpa using h
    | cons d r =>
      simp only [dropTrailingWS, hr, List.head?_cons, Option.some.injEq] at h
      simp [h]

theorem mem_dropTrailingWS {c : Char} : ∀ {l : List Char}, c ∈ dropTrailingWS l → c ∈ l := by
  intro l
  induction l with
  | nil => intro h; exact h
  | cons a t ih =>
    intro h
    cases hr : dropTrailingWS t with
    | nil =>
      rw [dropTrailingWS, hr] at h
      by_cases ha : isPySpace a = true
      · rw [if_pos ha] at h; simp at h
      · rw [if_neg (by simp [eq_false_of_ne_true ha])] at h
        simp only [List.mem_singleton] at h
        exact h ▸ List.mem_cons_self a t
    | cons d r =>
      rw [dropTrailingWS, hr] at h
      rcases List.mem_cons.mp h with h1 | h1
      · exact h1 ▸ List.mem_cons_self a t
      · exact List.mem_cons_of_mem _ (ih (hr ▸ h1))

theorem lastNotWS_dropTrailingWS : ∀ l : List Char, LastNotWS (dropTrailingWS l) := by
  intro l
  induction l with
  | nil => simp [dropTrailingWS, LastNotWS]
  | cons a t ih =>
    cases hr : dropTrailingWS t with
    | nil =>
      rw [dropTrailingWS, hr]
      by_cases ha : isPySpace a = true
      · rw [if_pos ha]; simp [LastNotWS]
      · rw [if_neg (by simp [eq_false_of_ne_true ha])]
        simpa [LastNotWS] using eq_false_of_ne_true ha
    | cons d r =>
      rw [dropTrailingWS, hr]
      show LastNotWS (a :: d :: r)
      have : LastNotWS (d :: r) := hr ▸ ih
      simpa [LastNotWS] using this

theorem dropTrailingWS_fixed : ∀ l : List Char, LastNotWS l → dropTrailingWS l = l := by
  intro l
  induction l with
  | nil => intro _; rfl
  | cons a t ih =>
    intro h
    cases t with
    | nil =>
      have ha : isPySpace a = false := by simpa [LastNotWS] using h
      simp only [dropTrailingWS]
      rw [if_neg (by rw [ha]; exact Bool.false_ne_true)]
    | cons b t' =>
      have h' : LastNotWS (b :: t') := by simpa [LastNotWS] using h
      have := ih h'
      rw [dropTrailingWS, this]

theorem noAdjWS_dropTrailingWS : ∀ {l : List Char}, NoAdjWS l → NoAdjWS (dropTrailingWS l) := by
  intro l
  induction l with
  | nil => intro h; simpa [dropTrailingWS] using h
  | cons a t ih =>
    intro h
    cases hr : dropTrailingWS t with
    | nil =>
      rw [dropTrailingWS, hr]
      by_cases ha : isPySpace a = true
      · rw [if_pos ha]; simp [NoAdjWS]
      · rw [if_neg (by simp [eq_false_of_ne_true ha])]; simp [NoAdjWS]
    | cons d r =>
      rw [dropTrailingWS, hr]
      rw [noAdjWS_cons]
      refine ⟨?_, hr ▸ ih (noAdjWS_tail h)⟩
      intro b hb
      have hbhead : t.head? = some b := by
        apply head?_dropTrailingWS
        rw [hr]
        simpa using hb
      exact (noAdjWS_cons.mp h).1 b hbhead

/-- A character of the output of `normalizeText` is either the single space
or a lowercase-stable word character. -/
def GoodChar (c : Char) : Prop :=
  c = ' ' ∨ (isWordChar c = true ∧ Char.toLower c = c)

theorem goodChar_of_mem_normalizeText {l : List Char} {c : Char}
    (h : c ∈ normalizeText l) : GoodChar c := by
  have h1 : c ∈ collapseWS (pySubNonWord (pyLower l)) :=
    mem_dropWhileWS (mem_dropTrailingWS h)
  rcases collapseWSAux_mem h1 with h2 | ⟨h3, h4⟩
  · exact Or.inl h2
  · simp only [pySubNonWord, pyLower, List.map_map, List.mem_map] at h3
    obtain ⟨a, _, ha⟩ := h3
    simp only [Function.comp_apply] at ha
    by_cases hk : (isWordChar (Char.toLower a) || isPySpace (Char.toLower a)) = true
    · rw [if_pos hk] at ha
      rcases Bool.or_eq_true_iff.mp hk with hw | hs
      · exact Or.inr ⟨ha ▸ hw, ha ▸ (ha ▸ toLower_toLower a)⟩
      · rw [ha] at hs; rw [hs] at h4; cases h4
    · rw [if_neg hk] at ha
      exact Or.inl ha.symm

theorem subLower_fixed {l : List Char} (h : ∀ c ∈ l, GoodChar c) :
    pySubNonWord (pyLower l) = l := by
  induction l with
  | nil => rfl
  | cons a t ih =>
    have ha := h a (List.mem_cons_self a t)
    have iht := ih fun c hc => h c (List.mem_cons_of_mem _ hc)
    have hstep : ∀ x, GoodChar x →
        (if isWordChar (Char.toLower x) || isPySpace (Char.toLower x) then Char.toLower x
          else ' ') = x := by
      intro x hx
      rcases hx with hsp | ⟨hw, hfix⟩
      · subst hsp
        rw [if_pos (by decide)]
        decide
      · rw [hfix, if_pos (by rw [hw]; rfl)]
    have : pySubNonWord (pyLower (a :: t)) =
        (if isWordChar (Char.toLower a) || isPySpace (Char.toLower a) then Char.toLower a
          else ' ') :: pySubNonWord (pyLower t) := rfl
    rw [this, hstep a ha, iht]

theorem normalizeText_wf (l : List Char) :
    WSisSpace (normalizeText l) ∧ NoAdjWS (normalizeText l) ∧
      headNotWS (normalizeText l) ∧ LastNotWS (normalizeText l) := by
  have hw := collapseWSAux_wf (pySubNonWord (pyLower l)) false
  refine ⟨?_, ?_, ?_, ?_⟩
  · intro c hc hws
    exact hw.1 c (mem_dropWhileWS (mem_dropTrailingWS hc)) hws
  · exact noAdjWS_dropTrailingWS (noAdjWS_dropWhile hw.2.1)
  · intro c hc
    exact headNotWS_dropWhile _ c (head?_dropTrailingWS hc)
  · exact lastNotWS_dropTrailingWS _

/-- The normalizer of `bible_data.py` is idempotent: re-normalizing canonical
text is the identity. -/
theorem normalizeText_idem (l : List Char) :
    normalizeText (normalizeText l) = normalizeText l := by
  have hwf := normalizeText_wf l
  have h1 : pySubNonWord (pyLower (normalizeText l)) = normalizeText l :=
    subLower_fixed fun c hc => goodChar_of_mem_normalizeText hc
  have h2 : collapseWS (normalizeText l) = normalizeText l :=
    (collapseWSAux_fixed _ hwf.1 hwf.2.1).1
  have h3 : pyStrip (normalizeText l) = normalizeText l := by
    unfold pyStrip
    rw [dropWhileWS_fixed hwf.2.2.1, dropTrailingWS_fixed _ hwf.2.2.2]
  show pyStrip (collapseWS (pySubNonWord (pyLower (normalizeText l)))) = normalizeText l
  rw [h1, h2, h3]

/-- Modelled from the claim's words for C5: replaces every character that is
not alphanumeric or whitespace (so also the underscore) by a space; the code
instead keeps every regex word character `[\w]`, underscore included. -/
def normalizeTextClaimed (l : List Char) : List Char :=
  pyStrip (collapseWS ((pyLower l).map fun c =>
    if isAsciiAlnum c || isPySpace c then c else ' '))

/-! Citation grammar: embedding of `VerseMatcher.REFERENCE_REGEX` (lines
18-22 of `verse_matcher.py`), as applied by `re.match` to the stripped
query.  Lazy (`[\w\s]*?`) and greedy-with-backtracking (`\d+` before the
optional version group) quantifiers are realised deterministically:
shortest-first for the book body, longest-first for the verse digits. -/

/-- Parsed named groups of `REFERENCE_REGEX`. -/
structure Citation where
  book : List Char
  chapter : Nat
  verse : Nat
  tag : Option (List Char)
deriving DecidableEq, Repr

/-- Python `int` on a non-empty digit string. -/
def digitsToNat (ds : List Char) : Nat :=
  ds.foldl (fun n c => 10 * n + (c.toNat - 48)) 0

/-- The optional trailing version group `(?:\s*(?:\(|\[)?(?P<version>[A-Za-z0-9]+)(?:\)|\])?)?\s*$`:
either the group matches and only whitespace remains, or the group is
skipped and the whole remainder is whitespace. -/
def parseVersionEnd (l : List Char) : Option (Option (List Char)) :=
  let r1 := l.dropWhile isPySpace
  let r2 := match r1 with
    | c :: rest => if c = '(' ∨ c = '[' then rest else r1
    | [] => r1
  let tag := r2.takeWhile isAsciiAlnum
  let r3 := r2.dropWhile isAsciiAlnum
  let r4 := match r3 with
    | c :: rest => if c = ')' ∨ c = ']' then rest else r3
    | [] => r3
  if tag ≠ [] ∧ r4.all isPySpace then some (some tag)
  else if l.all isPySpace then some none
  else none

/-- Greedy backtracking of the verse `\d+`: `vs` is the maximal digit run,
`r6` what follows it; splits are tried longest-first. -/
def tryVerseSplit (vs r6 : List Char) : Nat → Option (Nat × Option (List Char))
  | 0 => none
  | k + 1 =>
    match parseVersionEnd (vs.drop (k + 1) ++ r6) with
    | some ver => some (digitsToNat (vs.take (k + 1)), ver)
    | none => tryVerseSplit vs r6 k

/-- The regex tail `\s+(?P<chapter>\d+)\s*[:.]\s*(?P<verse>\d+)` followed by
the optional version group and `\s*$`. -/
def parseTail (l : List Char) : Option (Nat × Nat × Option (List Char)) :=
  let ws1 := l.takeWhile isPySpace
  let r1 := l.dropWhile isPySpace
  if ws1 = [] then none
  else
    let ds := r1.takeWhile isAsciiDigit
    let r2 := r1.dropWhile isAsciiDigit
    if ds = [] then none
    else
      let r3 := r2.dropWhile isPySpace
      match r3 with
      | [] => none
      | sep :: r4 =>
        if sep = ':' ∨ sep = '.' then
          let r5 := r4.dropWhile isPySpace
          let vs := r5.takeWhile isAsciiDigit
          let r6 := r5.dropWhile isAsciiDigit
          if vs = [] then none
          else
            match tryVerseSplit vs r6 vs.length with
            | some (v, ver) => some (digitsToNat ds, v, ver)
            | none => none
        else none

/-- The lazy book body `[\w\s]*?`: the shortest extension after which the
tail of the regex matches. -/
def findSplit (l : List Char) : Option (List Char × Nat × Nat × Option (List Char)) :=
  match parseTail l with
  | some (ch, vs, ver) => some ([], ch, vs, ver)
  | none =>
    match l with
    | [] => none
    | c :: rest =>
      if isWordChar c || isPySpace c then
        match findSplit rest with
        | some (b, ch, vs, ver) => some (c :: b, ch, vs, ver)
        | none => none
      else none

/-- The book start `[1-3]?\s*[A-Za-z]`: an optional numeral prefix with its
whitespace, then the first letter; returns the consumed book characters and
the rest. -/
def parseBookStart (l : List Char) : Option (List Char × List Char) :=
  match l with
  | [] => none
  | c :: rest =>
    if c = '1' ∨ c = '2' ∨ c = '3' then
      let ws := rest.takeWhile isPySpace
      let r := rest.dropWhile isPySpace
      match r with
      | d :: r' => if isAsciiLetter d then some (c :: ws ++ [d], r') else none
      | [] => none
    else if isAsciiLetter c then some ([c], rest)
    else none

/-- Embeds `REFERENCE_REGEX.match` on an (already stripped) query. -/
def parseCitation (l : List Char) : Option Citation :=
  let l1 := l.dropWhile isPySpace
  match parseBookStart l1 with
  | none => none
  | some (b0, r) =>
    match findSplit r with
    | none => none
    | some (b1, ch, vs, ver) => some ⟨b0 ++ b1, ch, vs, ver⟩

/-! The data model: `Verse` rows, Python dictionaries as association lists,
and the matcher state. -/

/-- The `Verse` ORM row of `database.py` (id and search_text omitted: the
engine never reads them). -/
structure Verse where
  version : List Char
  book : List Char
  chapter : Nat
  verse : Nat
  text : List Char
  embedding_index : Nat
deriving DecidableEq, Repr

/-- Python `dict` lookup on an association list with unique keys. -/
def dictGet {κ α : Type} [DecidableEq κ] : List (κ × α) → κ → Option α
  | [], _ => none
  | (k', v) :: rest, k => if k' = k then some v else dictGet rest k

/-- Python `d[k] = v`: replace in place when present, append when new. -/
def dictInsert {κ α : Type} [DecidableEq κ] : List (κ × α) → κ → α → List (κ × α)
  | [], k, v => [(k, v)]
  | (k', v') :: rest, k, v =>
    if k' = k then (k, v) :: rest else (k', v') :: dictInsert rest k v

/-- Python `d.setdefault(k, v)`. -/
def dictSetdefault {κ α : Type} [DecidableEq κ] (d : List (κ × α)) (k : κ) (v : α) :
    List (κ × α) :=
  if (dictGet d k).isSome then d else d ++ [(k, v)]

/-- Embeds `VerseMatcher._normalize_book` (lines 194-196): lowercase, keep only
`[a-z0-9\s]`, collapse whitespace, strip.  Unlike `normalize_text` this
replaces the underscore too. -/
def normalizeBook (l : List Char) : List Char :=
  pyStrip (collapseWS ((pyLower l).map fun c =>
    if isAsciiLower c || isAsciiDigit c || isPySpace c then c else ' '))

/-- The reserved `'default'` key of a per-reference version map. -/
def defaultKey : List Char := "default".data

/-- One iteration of the loop of `VerseMatcher._build_reference_cache`
(lines 201-209). -/
def buildRefStep
    (acc : List (List Char × List Char) ×
      List ((List Char × Nat × Nat) × List (List Char × Verse)))
    (v : Verse) :
    List (List Char × List Char) ×
      List ((List Char × Nat × Nat) × List (List Char × Verse)) :=
  let bk := normalizeBook v.book
  if bk = [] then acc
  else
    let bl := dictSetdefault acc.1 bk v.book
    let vmap := (dictGet acc.2 (bk, v.chapter, v.verse)).getD []
    let vmap1 := dictSetdefault vmap defaultKey v
    let vmap2 := dictInsert vmap1 (pyLower v.version) v
    let rl := dictInsert acc.2 (bk, v.chapter, v.verse) vmap2
    (bl, rl)

/-- Embeds `VerseMatcher._build_reference_cache` (lines 198-209), producing the
fresh `book_lookup` and `reference_lookup` from a verse list. -/
def buildRefLookups (verses : List Verse) :
    List (List Char × List Char) ×
      List ((List Char × Nat × Nat) × List (List Char × Verse)) :=
  verses.foldl buildRefStep ([], [])

/-- The matcher state.  `hasEmbedder` / `hasIndex` model `self.embedder` /
`self.faiss_index` being non-`None`; `semanticRaw` abstracts the embedding
encoder, the FAISS `search` (with its `top_k` cap) and the
`exp(-distance/10)` transform as one external component producing the
`(ordinal, similarity)` list of `semantic_match`'s try-body; `fuzzyPR`
abstracts RapidFuzz `fuzz.partial_ratio(·,·)/100` applied to normalized
strings. -/
structure Matcher where
  hasEmbedder : Bool
  hasIndex : Bool
  versesCache : List Verse
  bookLookup : List (List Char × List Char)
  referenceLookup : List ((List Char × Nat × Nat) × List (List Char × Verse))
  semanticRaw : List Char → List (Nat × ℚ)
  fuzzyPR : List Char → List Char → ℚ

/-- Rebuilds the two lookup dictionaries from the current cache (the
`self._build_reference_cache()` call sites). -/
def buildReferenceCacheM (m : Matcher) : Matcher :=
  let p := buildRefLookups m.versesCache
  { m with bookLookup := p.1, referenceLookup := p.2 }

/-- Embeds `version or match.group('version')` of line 222: the caller hint when
truthy, else the parsed trailing tag. -/
def citeHint (callerVersion tag : Option (List Char)) : Option (List Char) :=
  match callerVersion with
  | some v => if v = [] then tag else some v
  | none => tag

/-- Lines 242-247 of `find_reference`: a truthy hint that resolves wins,
otherwise the `'default'` entry of the version map. -/
def selectVariant (hint : Option (List Char)) (vmap : List (List Char × Verse)) :
    Option Verse :=
  match hint with
  | some h =>
    if h = [] then dictGet vmap defaultKey
    else
      match dictGet vmap (pyLower h) with
      | some v => some v
      | none => dictGet vmap defaultKey
  | none => dictGet vmap defaultKey

/-- Embeds `VerseMatcher.find_reference` (lines 211-247).  The `int()` conversions
of lines 231-235 cannot fail on the digit groups, so the `except ValueError`
branch is dead and not modelled. -/
def findReference (m : Matcher) (query : List Char) (version : Option (List Char)) :
    Option Verse :=
  if m.referenceLookup = [] then none
  else
    match parseCitation (pyStrip query) with
    | none => none
    | some c =>
      if c.book = [] then none
      else
        let bookKey := normalizeBook c.book
        if (dictGet m.bookLookup bookKey).isSome = false then none
        else
          match dictGet m.referenceLookup (bookKey, c.chapter, c.verse) with
          | none => none
          | some vmap =>
            if vmap = [] then none
            else selectVariant (citeHint version c.tag) vmap

/-- Embeds `using_embeddings` (line 159): both backend objects present. -/
def usingEmbeddings (m : Matcher) : Bool := m.hasEmbedder && m.hasIndex

/-- Embeds `VerseMatcher.semantic_match` (lines 92-118): empty without the backend,
otherwise the backend results filtered to in-range ordinals (line 111); a
backend exception is absorbed into `semanticRaw` returning `[]`. -/
def semanticMatch (m : Matcher) (query : List Char) : List (Nat × ℚ) :=
  if m.hasEmbedder && m.hasIndex then
    (m.semanticRaw query).filter fun p => p.1 < m.versesCache.length
  else []

/-- Embeds `VerseMatcher.fuzzy_match` (lines 80-90). -/
def fuzzyMatch (m : Matcher) (query verseText : List Char) : ℚ :=
  let qn := normalizeText query
  let vn := normalizeText verseText
  if qn = [] ∨ vn = [] then 0
  else m.fuzzyPR qn vn

/-- The candidate loop of `find_best_match` (lines 161-183): skip
out-of-range ordinals, blend the three sub-scores, keep the strictly best;
on ties the first candidate seen wins. -/
def scanCandidates (m : Matcher) (query : List Char) :
    List (Nat × ℚ) → Option Verse × ℚ → Option Verse × ℚ
  | [], acc => acc
  | (idx, sem) :: rest, (bv, bs) =>
    if h : idx < m.versesCache.length then
      let v := m.versesCache.get ⟨idx, h⟩
      let e := exactMatch query v.text
      let f := fuzzyMatch m query v.text
      let c := combinedScore (usingEmbeddings m) e f sem
      if c > bs then scanCandidates m query rest (some v, c)
      else scanCandidates m query rest (bv, bs)
    else scanCandidates m query rest (bv, bs)

/-- The lazy cache rebuild of lines 147-150: an unordered `SELECT` returning
the stored row order, then `_build_reference_cache`. -/
def rebuildCache (m : Matcher) (store : List Verse) : Matcher :=
  buildReferenceCacheM { m with versesCache := store }

/-- Line 187: the acceptance threshold, capped at `0.5` in degraded mode. -/
def effectiveMinScore (m : Matcher) (minScore : ℚ) : ℚ :=
  if usingEmbeddings m then minScore else min minScore 0.5

/-- Lines 146-151: the matcher state after the candidate-selection step —
unchanged unless both the semantic shortlist and the cache are empty, in
which case the cache is lazily rebuilt from the store. -/
def postRefState (m : Matcher) (store : List Verse) (query : List Char) : Matcher :=
  if semanticMatch m query = [] ∧ m.versesCache = [] then rebuildCache m store else m

/-- Lines 146-154: the candidate list — the semantic shortlist when present,
else the whole (possibly just rebuilt) cache with semantic sub-score 0. -/
def postRefCandidates (m : Matcher) (store : List Verse) (query : List Char) :
    List (Nat × ℚ) :=
  if semanticMatch m query = [] then
    (List.range (postRefState m store query).versesCache.length).map fun i => (i, (0 : ℚ))
  else semanticMatch m query

/-- Lines 156-192 after the candidates are fixed: run the loop from
`(None, 0.0)` and apply the threshold gate (`best_verse and best_score >=
effective_min_score`). -/
def resolveScored (m' : Matcher) (query : List Char) (minScore : ℚ)
    (candidates : List (Nat × ℚ)) : Option (Verse × ℚ) :=
  match scanCandidates m' query candidates (none, 0) with
  | (some v, bs) => if bs ≥ effectiveMinScore m' minScore then some (v, bs) else none
  | (none, _) => none

/-- Embeds `VerseMatcher.find_best_match` (lines 120-192), with the mutable
matcher state passed explicitly and the latency component dropped.
`store` is the row list an unordered `SELECT` would return. -/
def findBestMatch (m : Matcher) (store : List Verse) (query : List Char)
    (minScore : ℚ) (version : Option (List Char)) : Matcher × Option (Verse × ℚ) :=
  if query = [] ∨ (pyStrip query).length < 5 then (m, none)
  else
    match findReference m query version with
    | some v => (m, some (v, 1))
    | none =>
      let m' := postRefState m store query
      (m', resolveScored m' query minScore (postRefCandidates m store query))

/-- The two capability modes of the spec, decided by `using_embeddings`. -/
inductive CapabilityMode where
  | WithSemantic
  | Degraded
deriving DecidableEq, Repr

/-- The capability mode the matcher state exhibits. -/
def modeOf (m : Matcher) : CapabilityMode :=
  if usingEmbeddings m then CapabilityMode.WithSemantic else CapabilityMode.Degraded

/-- Ordered insertion by `embedding_index`. -/
def insertByOrdinal (v : Verse) : List Verse → List Verse
  | [] => [v]
  | w :: rest =>
    if v.embedding_index ≤ w.embedding_index then v :: w :: rest
    else w :: insertByOrdinal v rest

/-- The `SELECT ... ORDER BY embedding_index` of line 41: the store rows in
ascending ordinal order. -/
def sortByOrdinal : List Verse → List Verse
  | [] => []
  | v :: rest => insertByOrdinal v (sortByOrdinal rest)

/-- The state produced by `VerseMatcher.initialize` (lines 31-59).
`backendOk` models the whole semantic build succeeding (the
`sentence_transformers`/`faiss` imports, the model load, the DB read, the
encode and the index build); `false` models the common failure at the
import, before any assignment, which the `except` swallows.  On success
the embedder is set, the cache is loaded by the ordered `SELECT` and the
reference indices rebuilt; the emptiness check of line 45 reads the
just-assigned cache (the sorted store) and skips the index build, else the
index is set. -/
def initRunState (m : Matcher) (store : List Verse) (backendOk : Bool) : Matcher :=
  if backendOk then
    let m2 := buildReferenceCacheM
      { m with hasEmbedder := true, versesCache := sortByOrdinal store }
    if sortByOrdinal store = [] then m2
    else { m2 with hasIndex := true }
  else m

/-- Embeds `VerseMatcher.initialize` as seen by the caller: the resulting state and
the value the Python function returns — `None` on every path (the spec's
capability mode is never returned, it is only implicit in the state). -/
def initRun (m : Matcher) (store : List Verse) (backendOk : Bool) :
    Matcher × Option CapabilityMode :=
  (initRunState m store backendOk, none)

/-- A matcher as built by `VerseMatcher.__init__` (lines 24-29), with the
two external scoring components supplied. -/
def freshMatcher (sr : List Char → List (Nat × ℚ)) (fz : List Char → List Char → ℚ) :
    Matcher :=
  { hasEmbedder := false, hasIndex := false, versesCache := [], bookLookup := [],
    referenceLookup := [], semanticRaw := sr, fuzzyPR := fz }

/-! Dictionary lemmas. -/

theorem dictGet_ne_nil {κ α : Type} [DecidableEq κ] {d : List (κ × α)} {k : κ} {v : α}
    (h : dictGet d k = some v) : d ≠ [] := by
  intro he
  rw [he] at h
  cases h

theorem dictGet_insert_self {κ α : Type} [DecidableEq κ] (d : List (κ × α)) (k : κ) (v : α) :
    dictGet (dictInsert d k v) k = some v := by
  induction d with
  | nil => simp [dictInsert, dictGet]
  | cons p rest ih =>
    obtain ⟨k0, v0⟩ := p
    by_cases hk : k0 = k
    · simp [dictInsert, hk, dictGet]
    · simp only [dictInsert, if_neg hk, dictGet, if_neg hk]
      exact ih

theorem dictGet_insert_ne {κ α : Type} [DecidableEq κ] (d : List (κ × α)) (k k' : κ) (v : α)
    (h : k' ≠ k) : dictGet (dictInsert d k v) k' = dictGet d k' := by
  induction d with
  | nil => simp [dictInsert, dictGet, if_neg (fun hc : k = k' => h hc.symm)]
  | cons p rest ih =>
    obtain ⟨k0, v0⟩ := p
    by_cases hk : k0 = k
    · subst hk
      simp only [dictInsert, if_pos rfl, dictGet,
        if_neg (fun hc : k0 = k' => h hc.symm)]
    · simp only [dictInsert, if_neg hk, dictGet]
      by_cases hx : k0 = k'
      · rw [if_pos hx, if_pos hx]
      · rw [if_neg hx, if_neg hx]
        exact ih

theorem dictGet_append_of_isSome {κ α : Type} [DecidableEq κ]
    {d : List (κ × α)} (e : List (κ × α)) {k : κ}
    (h : (dictGet d k).isSome = true) : dictGet (d ++ e) k = dictGet d k := by
  induction d with
  | nil => simp [dictGet] at h
  | cons p rest ih =>
    obtain ⟨k0, v0⟩ := p
    simp only [List.cons_append, dictGet]
    by_cases hx : k0 = k
    · rw [if_pos hx, if_pos hx]
    · rw [if_neg hx, if_neg hx]
      apply ih
      simpa [dictGet, hx] using h

theorem dictGet_append_of_none {κ α : Type} [DecidableEq κ]
    {d : List (κ × α)} (e : List (κ × α)) {k : κ}
    (h : dictGet d k = none) : dictGet (d ++ e) k = dictGet e k := by
  induction d with
  | nil => simp
  | cons p rest ih =>
    obtain ⟨k0, v0⟩ := p
    simp only [List.cons_append, dictGet]
    by_cases hx : k0 = k
    · rw [dictGet, if_pos hx] at h; cases h
    · rw [if_neg hx]
      apply ih
      rw [dictGet, if_neg hx] at h
      exact h

theorem dictGet_setdefault_self_isSome {κ α : Type} [DecidableEq κ]
    (d : List (κ × α)) (k : κ) (v : α) :
    (dictGet (dictSetdefault d k v) k).isSome = true := by
  unfold dictSetdefault
  by_cases hs : (dictGet d k).isSome = true
  · rw [if_pos hs]; exact hs
  · rw [if_neg hs]
    have hnone : dictGet d k = none := Option.not_isSome_iff_eq_none.mp hs
    rw [dictGet_append_of_none _ hnone]
    simp [dictGet]

theorem dictGet_setdefault_isSome_mono {κ α : Type} [DecidableEq κ]
    {d : List (κ × α)} {k' : κ} (k : κ) (v : α)
    (h : (dictGet d k').isSome = true) :
    (dictGet (dictSetdefault d k v) k').isSome = true := by
  unfold dictSetdefault
  by_cases hs : (dictGet d k).isSome = true
  · rw [if_pos hs]; exact h
  · rw [if_neg hs]
    rw [dictGet_append_of_isSome _ h]
    exact h

theorem dictInsert_ne_nil {κ α : Type} [DecidableEq κ] (d : List (κ × α)) (k : κ) (v : α) :
    dictInsert d k v ≠ [] := by
  intro h
  have := dictGet_insert_self d k v
  rw [h] at this
  cases this

/-! Lemmas about the candidate loop. -/

theorem scanCandidates_result_mem (m : Matcher) (q : List Char) :
    ∀ (cands : List (Nat × ℚ)) (bv : Option Verse) (bs : ℚ) (v : Verse) (s : ℚ),
      scanCandidates m q cands (bv, bs) = (some v, s) →
      (bv = some v ∧ bs = s) ∨
        ∃ idx sem, (idx, sem) ∈ cands ∧ ∃ h : idx < m.versesCache.length,
          m.versesCache.get ⟨idx, h⟩ = v ∧
          s = combinedScore (usingEmbeddings m) (exactMatch q v.text)
            (fuzzyMatch m q v.text) sem := by
  intro cands
  induction cands with
  | nil =>
    intro bv bs v s h
    simp only [scanCandidates] at h
    exact Or.inl ⟨(Prod.mk.injEq _ _ _ _ ▸ h).1, (Prod.mk.injEq _ _ _ _ ▸ h).2⟩
  | cons p rest ih =>
    intro bv bs v s h
    obtain ⟨idx, sem⟩ := p
    by_cases hlt : idx < m.versesCache.length
    · simp only [scanCandidates, dif_pos hlt] at h
      by_cases hgt : combinedScore (usingEmbeddings m)
          (exactMatch q (m.versesCache.get ⟨idx, hlt⟩).text)
          (fuzzyMatch m q (m.versesCache.get ⟨idx, hlt⟩).text) sem > bs
      · rw [if_pos hgt] at h
        rcases ih _ _ _ _ h with ⟨h1, h2⟩ | ⟨i, se, hmem, hh, hv, hs⟩
        · refine Or.inr ⟨idx, sem, List.mem_cons_self _ _, hlt, ?_, ?_⟩
          · exact Option.some.inj h1
          · rw [← h2, ← Option.some.inj h1]
        · exact Or.inr ⟨i, se, List.mem_cons_of_mem _ hmem, hh, hv, hs⟩
      · rw [if_neg hgt] at h
        rcases ih _ _ _ _ h with h1 | ⟨i, se, hmem, hh, hv, hs⟩
        · exact Or.inl h1
        · exact Or.inr ⟨i, se, List.mem_cons_of_mem _ hmem, hh, hv, hs⟩
    · simp only [scanCandidates, dif_neg hlt] at h
      rcases ih _ _ _ _ h with h1 | ⟨i, se, hmem, hh, hv, hs⟩
      · exact Or.inl h1
      · exact Or.inr ⟨i, se, List.mem_cons_of_mem _ hmem, hh, hv, hs⟩

theorem scanCandidates_invariant (m : Matcher) (q : List Char) :
    ∀ (cands : List (Nat × ℚ)) (bv : Option Verse) (bs : ℚ),
      (0 < bs ↔ bv ≠ none) → 0 ≤ bs →
      (0 < (scanCandidates m q cands (bv, bs)).2 ↔
        (scanCandidates m q cands (bv, bs)).1 ≠ none) ∧
      0 ≤ (scanCandidates m q cands (bv, bs)).2 := by
  intro cands
  induction cands with
  | nil =>
    intro bv bs h1 h2
    exact ⟨h1, h2⟩
  | cons p rest ih =>
    intro bv bs h1 h2
    obtain ⟨idx, sem⟩ := p
    by_cases hlt : idx < m.versesCache.length
    · simp only [scanCandidates, dif_pos hlt]
      by_cases hgt : combinedScore (usingEmbeddings m)
          (exactMatch q (m.versesCache.get ⟨idx, hlt⟩).text)
          (fuzzyMatch m q (m.versesCache.get ⟨idx, hlt⟩).text) sem > bs
      · rw [if_pos hgt]
        apply ih
        · constructor
          · intro _; exact fun hc => Option.noConfusion hc
          · intro _; exact lt_of_le_of_lt h2 hgt
        · exact le_of_lt (lt_of_le_of_lt h2 hgt)
      · rw [if_neg hgt]
        exact ih _ _ h1 h2
    · simp only [scanCandidates, dif_neg hlt]
      exact ih _ _ h1 h2

/-- Unfolds `find_best_match` past the citation fast path (the query is long
enough and no reference resolves). -/
theorem findBestMatch_of_ref_none (m : Matcher) (store : List Verse) (q : List Char)
    (ms : ℚ) (ver : Option (List Char))
    (hlen : ¬(q = [] ∨ (pyStrip q).length < 5))
    (href : findReference m q ver = none) :
    findBestMatch m store q ms ver =
      (postRefState m store q,
        resolveScored (postRefState m store q) q ms (postRefCandidates m store q)) := by
  unfold findBestMatch
  rw [if_neg hlen, href]

/-! Length bounds: any string matched by the citation grammar has at least
five characters, so the short-query guard never blocks a citation. -/

theorem takeWhile_add_dropWhile_length (p : Char → Bool) (l : List Char) :
    l.length = (l.takeWhile p).length + (l.dropWhile p).length := by
  rw [← List.length_append, List.takeWhile_append_dropWhile]

theorem parseTail_length {l : List Char} {r : Nat × Nat × Option (List Char)}
    (h : parseTail l = some r) : 4 ≤ l.length := by
  have e1 := takeWhile_add_dropWhile_length isPySpace l
  have e2 := takeWhile_add_dropWhile_length isAsciiDigit (l.dropWhile isPySpace)
  have e3 := takeWhile_add_dropWhile_length isPySpace
    ((l.dropWhile isPySpace).dropWhile isAsciiDigit)
  simp only [parseTail] at h
  split at h
  · cases h
  · rename_i hws1
    split at h
    · cases h
    · rename_i hds
      split at h
      · cases h
      · rename_i sep r4 hr3
        split at h
        · split at h
          · cases h
          · rename_i hvs
            have g1 : 1 ≤ (l.takeWhile isPySpace).length :=
              List.length_pos.mpr hws1
            have g2 : 1 ≤ ((l.dropWhile isPySpace).takeWhile isAsciiDigit).length :=
              List.length_pos.mpr hds
            have g3 : (((l.dropWhile isPySpace).dropWhile isAsciiDigit).dropWhile
                isPySpace).length = r4.length + 1 := by
              rw [hr3]; rfl
            have e4 := takeWhile_add_dropWhile_length isPySpace r4
            have e5 := takeWhile_add_dropWhile_length isAsciiDigit
              (r4.dropWhile isPySpace)
            have g4 : 1 ≤ ((r4.dropWhile isPySpace).takeWhile isAsciiDigit).length :=
              List.length_pos.mpr hvs
            omega
        · cases h

theorem findSplit_length : ∀ {l : List Char} {r}, findSplit l = some r → 4 ≤ l.length := by
  intro l
  induction l with
  | nil =>
    intro r h
    simp [findSplit, parseTail] at h
  | cons c rest ih =>
    intro r h
    simp only [findSplit] at h
    cases hpt : parseTail (c :: rest) with
    | some p => exact parseTail_length hpt
    | none =>
      rw [hpt] at h
      simp only at h
      split at h
      · split at h
        · rename_i q hq
          have := ih hq
          simp only [List.length_cons]
          omega
        · cases h
      · cases h

theorem parseBookStart_spec : ∀ {l b0 r : List Char},
    parseBookStart l = some (b0, r) → b0 ≠ [] ∧ r.length < l.length := by
  intro l b0 r h
  cases l with
  | nil => simp [parseBookStart] at h
  | cons c rest =>
    have edrop := takeWhile_add_dropWhile_length isPySpace rest
    simp only [parseBookStart] at h
    split at h
    · split at h
      · rename_i d r' hdrop
        split at h
        · obtain ⟨hb0, hr⟩ := Prod.mk.injEq _ _ _ _ ▸ Option.some.inj h
          constructor
          · rw [← hb0]; exact List.cons_ne_nil _ _
          · have : (rest.dropWhile isPySpace).length = r'.length + 1 := by
              rw [hdrop]; rfl
            rw [← hr]
            simp only [List.length_cons]
            omega
        · cases h
      · cases h
    · split at h
      · obtain ⟨hb0, hr⟩ := Prod.mk.injEq _ _ _ _ ▸ Option.some.inj h
        constructor
        · rw [← hb0]; exact List.cons_ne_nil _ _
        · rw [← hr]
          simp [List.length_cons]
      · cases h

theorem parseCitation_spec {l : List Char} {c : Citation} (h : parseCitation l = some c) :
    5 ≤ l.length ∧ c.book ≠ [] := by
  have edrop := takeWhile_add_dropWhile_length isPySpace l
  simp only [parseCitation] at h
  cases hb : parseBookStart (l.dropWhile isPySpace) with
  | none => rw [hb] at h; cases h
  | some p =>
    obtain ⟨b0, r⟩ := p
    rw [hb] at h
    simp only at h
    cases hf : findSplit r with
    | none => rw [hf] at h; cases h
    | some q =>
      obtain ⟨b1, ch, vs, ver⟩ := q
      rw [hf] at h
      simp only at h
      have hc := Option.some.inj h
      have hbs := parseBookStart_spec hb
      have hfl := findSplit_length hf
      constructor
      · omega
      · rw [← hc]
        intro hcontra
        exact hbs.1 (List.append_eq_nil.mp hcontra).1

/-! Sorting by ordinal: permutation and sortedness of `sortByOrdinal`. -/

theorem insertByOrdinal_perm (v : Verse) (l : List Verse) :
    (insertByOrdinal v l).Perm (v :: l) := by
  induction l with
  | nil => exact List.Perm.refl _
  | cons w rest ih =>
    simp only [insertByOrdinal]
    split
    · exact List.Perm.refl _
    · exact (List.Perm.cons w ih).trans (List.Perm.swap v w rest)

theorem sortByOrdinal_perm (l : List Verse) : (sortByOrdinal l).Perm l := by
  induction l with
  | nil => exact List.Perm.refl _
  | cons v rest ih =>
    exact (insertByOrdinal_perm v _).trans (List.Perm.cons v ih)

theorem insertByOrdinal_sorted {l : List Verse} (v : Verse)
    (h : List.Sorted (fun a b => a.embedding_index ≤ b.embedding_index) l) :
    List.Sorted (fun a b => a.embedding_index ≤ b.embedding_index)
      (insertByOrdinal v l) := by
  induction l with
  | nil => simp [insertByOrdinal]
  | cons w rest ih =>
    simp only [insertByOrdinal]
    split
    · rename_i hle
      rw [List.sorted_cons]
      refine ⟨?_, h⟩
      intro b hb
      rcases List.mem_cons.mp hb with hbw | hbr
      · rw [hbw]; exact hle
      · exact le_trans hle ((List.sorted_cons.mp h).1 b hbr)
    · rename_i hgt
      rw [List.sorted_cons] at h ⊢
      refine ⟨?_, ih h.2⟩
      intro b hb
      have hb' := (insertByOrdinal_perm v rest).mem_iff.mp hb
      rcases List.mem_cons.mp hb' with hbv | hbr
      · rw [hbv]; omega
      · exact h.1 b hbr

theorem sortByOrdinal_sorted (l : List Verse) :
    List.Sorted (fun a b => a.embedding_index ≤ b.embedding_index) (sortByOrdinal l) := by
  induction l with
  | nil => simp [sortByOrdinal]
  | cons v rest ih => exact insertByOrdinal_sorted v ih

theorem sortByOrdinal_map_ord {store : List Verse} {N : ℕ}
    (hperm : (store.map Verse.embedding_index).Perm (List.range N)) :
    (sortByOrdinal store).map Verse.embedding_index = List.range N := by
  apply List.eq_of_perm_of_sorted (r := (· ≤ ·))
  · exact ((sortByOrdinal_perm store).map _).trans hperm
  · exact List.pairwise_map.mpr (sortByOrdinal_sorted store)
  · exact (List.sorted_lt_range N).imp le_of_lt

theorem sortByOrdinal_get? {store : List Verse} {N i : ℕ} {v : Verse}
    (hperm : (store.map Verse.embedding_index).Perm (List.range N))
    (h : (sortByOrdinal store).get? i = some v) : v.embedding_index = i := by
  have hm := sortByOrdinal_map_ord hperm
  have h1 : ((sortByOrdinal store).map Verse.embedding_index).get? i =
      some v.embedding_index := by
    rw [List.get?_map, h]
    rfl
  rw [hm] at h1
  have hi : i < N := by
    have := List.get?_eq_some.mp h1
    simpa using this.1
  rw [List.get?_range hi] at h1
  exact (Option.some.inj h1).symm

theorem sortByOrdinal_ne_nil {store : List Verse} (h : store ≠ []) :
    sortByOrdinal store ≠ [] := by
  cases store with
  | nil => exact absurd rfl h
  | cons v rest =>
    simp only [sortByOrdinal]
    cases hs : sortByOrdinal rest with
    | nil => simp [insertByOrdinal]
    | cons w r =>
      simp only [insertByOrdinal]
      split
      · exact List.cons_ne_nil _ _
      · exact List.cons_ne_nil _ _

/-! Invariant of the reference-cache build: any stored reference key has its
book key in the book lookup and a non-empty version map containing the
`'default'` entry. -/

def RefInv (acc : List (List Char × List Char) ×
    List ((List Char × Nat × Nat) × List (List Char × Verse))) : Prop :=
  ∀ key vmap, dictGet acc.2 key = some vmap →
    (dictGet acc.1 key.1).isSome = true ∧ vmap ≠ [] ∧
      (dictGet vmap defaultKey).isSome = true

theorem buildRefStep_inv {acc} (v : Verse) (h : RefInv acc) :
    RefInv (buildRefStep acc v) := by
  unfold buildRefStep
  by_cases hbk : normalizeBook v.book = []
  · rw [if_pos hbk]; exact h
  · rw [if_neg hbk]
    intro key vmap hget
    simp only at hget
    by_cases hk : key = (normalizeBook v.book, v.chapter, v.verse)
    · subst hk
      rw [dictGet_insert_self] at hget
      have hv := (Option.some.inj hget).symm
      refine ⟨?_, ?_, ?_⟩
      · exact dictGet_setdefault_self_isSome _ _ _
      · rw [hv]; exact dictInsert_ne_nil _ _ _
      · rw [hv]
        by_cases hd : pyLower v.version = defaultKey
        · rw [hd, dictGet_insert_self]; rfl
        · rw [dictGet_insert_ne _ _ _ _ (fun hc => hd hc.symm)]
          exact dictGet_setdefault_self_isSome _ _ _
    · rw [dictGet_insert_ne _ _ _ _ hk] at hget
      have hold := h key vmap hget
      exact ⟨dictGet_setdefault_isSome_mono _ _ hold.1, hold.2.1, hold.2.2⟩

theorem buildRefLookups_inv (L : List Verse) : RefInv (buildRefLookups L) := by
  have hbase : RefInv (([], []) :
      List (List Char × List Char) ×
        List ((List Char × Nat × Nat) × List (List Char × Verse))) := by
    intro key vmap hget
    simp [dictGet] at hget
  have hstep : ∀ (M : List Verse) acc, RefInv acc → RefInv (M.foldl buildRefStep acc) := by
    intro M
    induction M with
    | nil => intro acc h; exact h
    | cons v rest ih => intro acc h; exact ih _ (buildRefStep_inv v h)
  exact hstep L _ hbase

example : parseCitation "Genesis 1:1".data = some ⟨"Genesis".data, 1, 1, none⟩ := by decide
example : parseCitation "1 John 3 : 16 (NIV)".data =
    some ⟨"1 John".data, 3, 16, some "NIV".data⟩ := by decide
example : parseCitation "John 3.16 KJV".data = some ⟨"John".data, 3, 16, some "KJV".data⟩ := by
  decide
example : parseCitation "Psalm 23 23:1".data = some ⟨"Psalm 23".data, 23, 1, none⟩ := by decide
example : parseCitation "John 3:16]".data = some ⟨"John".data, 3, 1, some "6".data⟩ := by decide
example : parseCitation "John 3:1612".data = some ⟨"John".data, 3, 1612, none⟩ := by decide
example : parseCitation "John 3:16NIV2".data = some ⟨"John".data, 3, 16, some "NIV2".data⟩ := by
  decide
example : parseCitation "1John 3:16".data = some ⟨"1John".data, 3, 16, none⟩ := by decide
example : parseCitation "33:4".data = none := by decide
example : parseCitation "John 3 16".data = none := by decide
example : parseCitation "John 3:16b c".data = none := by decide
example : parseCitation "Song of Solomon 2:1".data =
    some ⟨"Song of Solomon".data, 2, 1, none⟩ := by decide
example : parseCitation "John 3:0016".data = some ⟨"John".data, 3, 16, none⟩ := by decide
example : normalizeBook "  1  John ".data = "1 john".data := by decide

/-! Spec-side blend definitions (refinement targets for C1), and concrete
fixtures used by witnesses and counterexamples. -/

/-- Modelled from the spec's words (§4.6 step 5, semantic available):
`0.5·exact + 0.3·fuzzy + 0.2·semantic` when `exact > 0.5`, else
`0.2·exact + 0.5·fuzzy + 0.3·semantic`. -/
def specBlendSemantic (exact fuzzy semantic : ℚ) : ℚ :=
  if exact > 0.5 then 0.5 * exact + 0.3 * fuzzy + 0.2 * semantic
  else 0.2 * exact + 0.5 * fuzzy + 0.3 * semantic

/-- Modelled from the spec's words (§4.6 step 5, degraded):
`0.3·exact + 0.7·fuzzy`. -/
def specBlendDegraded (exact fuzzy : ℚ) : ℚ := 0.3 * exact + 0.7 * fuzzy

/-- The blend of the code equals the blend of the spec, mode by mode. -/
theorem combinedScore_eq_spec (u : Bool) (e f sem : ℚ) :
    combinedScore u e f sem =
      if u then specBlendSemantic e f sem else specBlendDegraded e f := by
  cases u <;> rfl

/-- A semantic component that never returns candidates (backend absent). -/
def zeroSR : List Char → List (Nat × ℚ) := fun _ => []

/-- A fuzzy primitive returning similarity 0 (a legal instantiation of
`partial_ratio/100`, e.g. on strings with no common character). -/
def zeroFZ : List Char → List Char → ℚ := fun _ _ => 0

/-- Genesis 1:1 (KJV), ordinal 0. -/
def kjvGenesis : Verse :=
  ⟨"KJV".data, "Genesis".data, 1, 1,
    "In the beginning God created the heaven and the earth.".data, 0⟩

/-- Genesis 1:1 (NIV), ordinal 1. -/
def nivGenesis : Verse :=
  ⟨"NIV".data, "Genesis".data, 1, 1,
    "In the beginning God created the heavens and the earth.".data, 1⟩

/-- A verse whose text shares no character with the query `"qqqqq"`. -/
def plainVerse : Verse := ⟨"KJV".data, "B".data, 1, 1, "bbb".data, 0⟩

/-- John 3:16 fragment used for positive-score scenarios. -/
def lovedVerse : Verse :=
  ⟨"KJV".data, "John".data, 3, 16, "for god so loved the world".data, 0⟩

/-- A degraded matcher whose cache and lookups are built from one verse. -/
def mW : Matcher := rebuildCache (freshMatcher zeroSR zeroFZ) [lovedVerse]

/-- A degraded matcher over the unrelated verse, for threshold boundaries. -/
def mC2 : Matcher := rebuildCache (freshMatcher zeroSR zeroFZ) [plainVerse]

/-- A freshly constructed matcher: empty cache and lookups, no backend. -/
def mC9 : Matcher := freshMatcher zeroSR zeroFZ

/-- C1: for queries that do not resolve via the citation fast path, the
combined score of every candidate — in particular of the returned best
candidate — is the mode-dependent blend stated by the spec. -/
theorem c1_blend_policy :
    (∀ e f sem : ℚ, combinedScore true e f sem = specBlendSemantic e f sem) ∧
    (∀ e f sem : ℚ, combinedScore false e f sem = specBlendDegraded e f) ∧
    (∀ (m : Matcher) (store : List Verse) (q : List Char) (ms : ℚ)
        (ver : Option (List Char)) (v : Verse) (s : ℚ),
      findReference m q ver = none →
      (findBestMatch m store q ms ver).2 = some (v, s) →
      ∃ sem : ℚ, s =
        if usingEmbeddings (findBestMatch m store q ms ver).1 then
          specBlendSemantic (exactMatch q v.text)
            (fuzzyMatch (findBestMatch m store q ms ver).1 q v.text) sem
        else
          specBlendDegraded (exactMatch q v.text)
            (fuzzyMatch (findBestMatch m store q ms ver).1 q v.text)) := by
  refine ⟨fun e f sem => rfl, fun e f sem => rfl, ?_⟩
  intro m store q ms ver v s href hres
  by_cases hlen : q = [] ∨ (pyStrip q).length < 5
  · unfold findBestMatch at hres
    rw [if_pos hlen] at hres
    cases hres
  · have hstep := findBestMatch_of_ref_none m store q ms ver hlen href
    rw [hstep] at hres ⊢
    simp only at hres ⊢
    unfold resolveScored at hres
    cases hscan : scanCandidates (postRefState m store q) q
        (postRefCandidates m store q) (none, 0) with
    | mk bv bs =>
      rw [hscan] at hres
      cases bv with
      | none => exact Option.noConfusion hres
      | some v' =>
        have hres' : (if bs ≥ effectiveMinScore (postRefState m store q) ms then
            some (v', bs) else none) = some (v, s) := hres
        by_cases hge : bs ≥ effectiveMinScore (postRefState m store q) ms
        · rw [if_pos hge] at hres'
          obtain ⟨hv, hs⟩ := Prod.mk.injEq _ _ _ _ ▸ Option.some.inj hres'
          rcases scanCandidates_result_mem _ _ _ _ _ _ _ hscan with ⟨hcon, _⟩ | hmem
          · cases hcon
          · obtain ⟨idx, sem, _, hlt, hvv, hsc⟩ := hmem
            refine ⟨sem, ?_⟩
            rw [← hs, hsc, hv]
            exact combinedScore_eq_spec _ _ _ _
        · rw [if_neg hge] at hres'
          cases hres'

/-- Witness for C1: a degraded-mode call whose returned score `9/65` is the
degraded blend of the returned verse's sub-scores. -/
theorem c1_witness :
    ∃ sem : ℚ, (9/65 : ℚ) =
      if usingEmbeddings (findBestMatch mW [lovedVerse] "God so loved".data 0 none).1 then
        specBlendSemantic (exactMatch "God so loved".data lovedVerse.text)
          (fuzzyMatch (findBestMatch mW [lovedVerse] "God so loved".data 0 none).1
            "God so loved".data lovedVerse.text) sem
      else
        specBlendDegraded (exactMatch "God so loved".data lovedVerse.text)
          (fuzzyMatch (findBestMatch mW [lovedVerse] "God so loved".data 0 none).1
            "God so loved".data lovedVerse.text) :=
  c1_blend_policy.2.2 mW [lovedVerse] "God so loved".data 0 none lovedVerse (9/65)
    (by decide) (by with_unfolding_all decide)

/-- C2 counterexample: with `min_score = 0` in degraded mode the effective
threshold is `0`, the sole candidate's combined score is exactly `0`, yet
`find_best_match` returns no match (the code also requires a strictly
positive best score before accepting), refuting the claimed
if-and-only-if at the boundary. -/
theorem c2_counterexample :
    combinedScore (usingEmbeddings mC2) (exactMatch "qqqqq".data plainVerse.text)
      (fuzzyMatch mC2 "qqqqq".data plainVerse.text) 0 = 0 ∧
    effectiveMinScore mC2 0 = 0 ∧
    (findBestMatch mC2 [plainVerse] "qqqqq".data 0 none).2 = none := by
  with_unfolding_all decide

/-- C2 (amended): the effective threshold is `min_score` with the semantic
backend and `min(min_score, 0.5)` without it, and a non-citation call
returns a match if and only if the best combined score is strictly
positive and at least the effective threshold; the returned pair is
exactly the loop's best candidate and score. -/
theorem c2_amended_threshold (m : Matcher) (store : List Verse) (q : List Char)
    (ms : ℚ) (ver : Option (List Char))
    (hlen : ¬(q = [] ∨ (pyStrip q).length < 5))
    (href : findReference m q ver = none) :
    effectiveMinScore (postRefState m store q) ms =
      (if usingEmbeddings (postRefState m store q) then ms else min ms 0.5) ∧
    ((findBestMatch m store q ms ver).2 ≠ none ↔
      (0 < (scanCandidates (postRefState m store q) q
          (postRefCandidates m store q) (none, 0)).2 ∧
        (scanCandidates (postRefState m store q) q
          (postRefCandidates m store q) (none, 0)).2 ≥
          effectiveMinScore (postRefState m store q) ms)) ∧
    (∀ v s, (findBestMatch m store q ms ver).2 = some (v, s) →
      scanCandidates (postRefState m store q) q (postRefCandidates m store q)
        (none, 0) = (some v, s)) := by
  have hstep := findBestMatch_of_ref_none m store q ms ver hlen href
  have h2 : (findBestMatch m store q ms ver).2 =
      resolveScored (postRefState m store q) q ms (postRefCandidates m store q) := by
    rw [hstep]
  have hinv := scanCandidates_invariant (postRefState m store q) q
    (postRefCandidates m store q) none 0 (by simp) (le_refl 0)
  refine ⟨rfl, ?_, ?_⟩
  · cases hscan : scanCandidates (postRefState m store q) q
        (postRefCandidates m store q) (none, 0) with
    | mk bv bs =>
      rw [hscan] at hinv
      cases bv with
      | some v =>
        have hrs : resolveScored (postRefState m store q) q ms
            (postRefCandidates m store q) =
            (if bs ≥ effectiveMinScore (postRefState m store q) ms then
              some (v, bs) else none) := by
          unfold resolveScored
          rw [hscan]
        rw [h2, hrs]
        have hpos : 0 < bs := hinv.1.mpr (fun hc => Option.noConfusion hc)
        by_cases hge : bs ≥ effectiveMinScore (postRefState m store q) ms
        · rw [if_pos hge]
          constructor
          · intro _; exact ⟨hpos, hge⟩
          · intro _; exact fun hc => Option.noConfusion hc
        · rw [if_neg hge]
          constructor
          · intro hc; exact absurd rfl hc
          · intro hc; exact absurd hc.2 hge
      | none =>
        have hrs : resolveScored (postRefState m store q) q ms
            (postRefCandidates m store q) = none := by
          unfold resolveScored
          rw [hscan]
        rw [h2, hrs]
        have hz : ¬(0 < bs) := fun hc => (hinv.1.mp hc) rfl
        constructor
        · intro hc; exact absurd rfl hc
        · intro hc; exact absurd hc.1 hz
  · intro v s hres
    rw [h2] at hres
    cases hscan : scanCandidates (postRefState m store q) q
        (postRefCandidates m store q) (none, 0) with
    | mk bv bs =>
      unfold resolveScored at hres
      rw [hscan] at hres
      cases bv with
      | none => exact Option.noConfusion hres
      | some v' =>
        have hres' : (if bs ≥ effectiveMinScore (postRefState m store q) ms then
            some (v', bs) else none) = some (v, s) := hres
        by_cases hge : bs ≥ effectiveMinScore (postRefState m store q) ms
        · rw [if_pos hge] at hres'
          obtain ⟨hv, hs⟩ := Prod.mk.injEq _ _ _ _ ▸ Option.some.inj hres'
          rw [hv, hs]
        · rw [if_neg hge] at hres'
          cases hres'

/-- Witness for C2 (amended) at the degraded one-verse scenario with
`min_score = 0`. -/
theorem c2_witness :
    effectiveMinScore (postRefState mW [lovedVerse] "God so loved".data) 0 =
      (if usingEmbeddings (postRefState mW [lovedVerse] "God so loved".data) then 0
        else min 0 0.5) ∧
    ((findBestMatch mW [lovedVerse] "God so loved".data 0 none).2 ≠ none ↔
      (0 < (scanCandidates (postRefState mW [lovedVerse] "God so loved".data)
          "God so loved".data
          (postRefCandidates mW [lovedVerse] "God so loved".data) (none, 0)).2 ∧
        (scanCandidates (postRefState mW [lovedVerse] "God so loved".data)
          "God so loved".data
          (postRefCandidates mW [lovedVerse] "God so loved".data) (none, 0)).2 ≥
          effectiveMinScore (postRefState mW [lovedVerse] "God so loved".data) 0)) ∧
    (∀ v s, (findBestMatch mW [lovedVerse] "God so loved".data 0 none).2 = some (v, s) →
      scanCandidates (postRefState mW [lovedVerse] "God so loved".data)
        "God so loved".data
        (postRefCandidates mW [lovedVerse] "God so loved".data) (none, 0) =
        (some v, s)) :=
  c2_amended_threshold mW [lovedVerse] "God so loved".data 0 none
    (by decide) (by decide)

/-- C9 counterexample: on a freshly constructed (never initialized) matcher
the first call with a citation query misses the fast path (empty reference
index), lazily rebuilds the cache and the index, and returns no match; the
identical second call now resolves the citation with score 1.  The hidden
state mutated by the first call changes the second call's outcome. -/
theorem c9_counterexample :
    ((findBestMatch mC9 [kjvGenesis] "Genesis 1:1".data 0.6 none).2 = none) ∧
    ((findBestMatch (findBestMatch mC9 [kjvGenesis] "Genesis 1:1".data 0.6 none).1
        [kjvGenesis] "Genesis 1:1".data 0.6 none).2 = some (kjvGenesis, 1)) ∧
    (findBestMatch mC9 [kjvGenesis] "Genesis 1:1".data 0.6 none).2 ≠
      (findBestMatch (findBestMatch mC9 [kjvGenesis] "Genesis 1:1".data 0.6 none).1
        [kjvGenesis] "Genesis 1:1".data 0.6 none).2 := by
  with_unfolding_all decide

/-- C9 (amended): whenever the corpus cache is non-empty — so the first
call cannot trigger the lazy rebuild — `find_best_match` leaves the state
unchanged and an identical second call returns the identical result. -/
theorem c9_amended_idempotent (m : Matcher) (store : List Verse) (q : List Char)
    (ms : ℚ) (ver : Option (List Char)) (hc : m.versesCache ≠ []) :
    (findBestMatch m store q ms ver).1 = m ∧
    (findBestMatch (findBestMatch m store q ms ver).1 store q ms ver).2 =
      (findBestMatch m store q ms ver).2 := by
  have hpost : postRefState m store q = m := by
    unfold postRefState
    rw [if_neg (fun hcon => hc hcon.2)]
  have h1 : (findBestMatch m store q ms ver).1 = m := by
    unfold findBestMatch
    split
    · rfl
    · cases href : findReference m q ver with
      | some v => rfl
      | none => simp [hpost]
  exact ⟨h1, by rw [h1]⟩

/-- Witness for C9 (amended) on a matcher with a one-verse cache. -/
theorem c9_witness :
    (findBestMatch mW [lovedVerse] "hello there friend".data 0.6 none).1 = mW ∧
    (findBestMatch (findBestMatch mW [lovedVerse] "hello there friend".data 0.6 none).1
        [lovedVerse] "hello there friend".data 0.6 none).2 =
      (findBestMatch mW [lovedVerse] "hello there friend".data 0.6 none).2 :=
  c9_amended_idempotent mW [lovedVerse] "hello there friend".data 0.6 none (by decide)

/-- Unfolds `find_reference` past the grammar match: with a non-empty
reference index and a parsed citation, what remains are the book, key and
variant lookups. -/
theorem findReference_eq {m : Matcher} {q : List Char} {ver : Option (List Char)}
    {c : Citation} (hne : m.referenceLookup ≠ [])
    (hp : parseCitation (pyStrip q) = some c) :
    findReference m q ver =
      (if c.book = [] then none
       else if (dictGet m.bookLookup (normalizeBook c.book)).isSome = false then none
       else
         match dictGet m.referenceLookup (normalizeBook c.book, c.chapter, c.verse) with
         | none => none
         | some vmap =>
           if vmap = [] then none else selectVariant (citeHint ver c.tag) vmap) := by
  unfold findReference
  rw [if_neg hne, hp]

/-- C3: a query matching the citation grammar whose reference key exists in
the built lookups resolves through the fast path: `find_reference` returns
the variant selected by hint-over-tag-over-default priority, and
`find_best_match` returns that entry immediately with score exactly 1,
for every `min_score`. -/
theorem c3_citation_fast_path
    (m : Matcher) (store L : List Verse) (q : List Char) (ms : ℚ)
    (ver : Option (List Char)) (c : Citation) (vmap : List (List Char × Verse))
    (hb : m.bookLookup = (buildRefLookups L).1)
    (hr : m.referenceLookup = (buildRefLookups L).2)
    (hp : parseCitation (pyStrip q) = some c)
    (hk : dictGet m.referenceLookup (normalizeBook c.book, c.chapter, c.verse) =
      some vmap) :
    ∃ v, selectVariant (citeHint ver c.tag) vmap = some v ∧
      findReference m q ver = some v ∧
      findBestMatch m store q ms ver = (m, some (v, 1)) := by
  have hinv := buildRefLookups_inv L (normalizeBook c.book, c.chapter, c.verse) vmap
    (hr ▸ hk)
  obtain ⟨hbook0, hvne, hdef⟩ := hinv
  have hbook : (dictGet m.bookLookup (normalizeBook c.book)).isSome = true := by
    rw [hb]; exact hbook0
  have hps := parseCitation_spec hp
  have hsel : ∃ v, selectVariant (citeHint ver c.tag) vmap = some v := by
    unfold selectVariant
    cases citeHint ver c.tag with
    | none => exact Option.isSome_iff_exists.mp hdef
    | some hstr =>
      show ∃ v, (if hstr = [] then dictGet vmap defaultKey
        else
          match dictGet vmap (pyLower hstr) with
          | some v => some v
          | none => dictGet vmap defaultKey) = some v
      by_cases hhe : hstr = []
      · rw [if_pos hhe]
        exact Option.isSome_iff_exists.mp hdef
      · rw [if_neg hhe]
        cases hg : dictGet vmap (pyLower hstr) with
        | some v => exact ⟨v, rfl⟩
        | none => exact Option.isSome_iff_exists.mp hdef
  obtain ⟨v, hv⟩ := hsel
  have hfr : findReference m q ver = some v := by
    rw [findReference_eq (dictGet_ne_nil hk) hp]
    rw [if_neg hps.2, if_neg (by simp [hbook]), hk]
    show (if vmap = [] then none else selectVariant (citeHint ver c.tag) vmap) = some v
    rw [if_neg hvne]
    exact hv
  have hguard : ¬(q = [] ∨ (pyStrip q).length < 5) := by
    intro hcon
    have h5 := hps.1
    rcases hcon with hq | hlt
    · rw [hq] at h5
      have hz : (pyStrip ([] : List Char)).length = 0 := rfl
      omega
    · omega
  refine ⟨v, hv, hfr, ?_⟩
  unfold findBestMatch
  rw [if_neg hguard, hfr]

/-- The matcher state after a successful `initialize` over the two Genesis
variants. -/
def mC3 : Matcher :=
  { freshMatcher zeroSR zeroFZ with
      versesCache := [kjvGenesis, nivGenesis],
      bookLookup := (buildRefLookups [kjvGenesis, nivGenesis]).1,
      referenceLookup := (buildRefLookups [kjvGenesis, nivGenesis]).2 }

/-- Witness for C3: `"Genesis 1:1"` with an explicit `NIV` hint resolves to
the NIV variant immediately with score 1. -/
theorem c3_witness :
    ∃ v, selectVariant (citeHint (some "NIV".data) none)
        [(defaultKey, kjvGenesis), ("kjv".data, kjvGenesis), ("niv".data, nivGenesis)] =
        some v ∧
      findReference mC3 "Genesis 1:1".data (some "NIV".data) = some v ∧
      findBestMatch mC3 [kjvGenesis, nivGenesis] "Genesis 1:1".data 0.6
        (some "NIV".data) = (mC3, some (v, 1)) :=
  c3_citation_fast_path mC3 [kjvGenesis, nivGenesis] [kjvGenesis, nivGenesis]
    "Genesis 1:1".data 0.6 (some "NIV".data) ⟨"Genesis".data, 1, 1, none⟩
    [(defaultKey, kjvGenesis), ("kjv".data, kjvGenesis), ("niv".data, nivGenesis)]
    rfl rfl (by decide) (by decide)

/-- C6 counterexample: even when the semantic build succeeds on a non-empty
store — the resulting state is `WithSemantic` — `initialize` returns `None`
(the Python function has no return value on any path), not the capability
mode the claim says it returns. -/
theorem c6_counterexample :
    (initRun (freshMatcher zeroSR zeroFZ) [kjvGenesis] true).2 = none ∧
    modeOf (initRun (freshMatcher zeroSR zeroFZ) [kjvGenesis] true).1 =
      CapabilityMode.WithSemantic ∧
    (initRun (freshMatcher zeroSR zeroFZ) [kjvGenesis] true).2 ≠
      some CapabilityMode.WithSemantic := by decide

/-- C6 (amended): `initialize` never fails fatally — every backend-build
failure is absorbed and a state is always produced, with `None` as the
returned value — and the capability mode is observable from the resulting
state: `Degraded` when the backend build fails (or the corpus is empty, so
no index is built), `WithSemantic` otherwise. -/
theorem c6_amended_capability (sr : List Char → List (Nat × ℚ))
    (fz : List Char → List Char → ℚ) (store : List Verse) (ok : Bool) :
    (initRun (freshMatcher sr fz) store ok).2 = none ∧
    modeOf (initRun (freshMatcher sr fz) store ok).1 =
      (if ok = true ∧ store ≠ [] then CapabilityMode.WithSemantic
        else CapabilityMode.Degraded) := by
  cases ok with
  | false =>
    refine ⟨rfl, ?_⟩
    rw [if_neg (fun hc => Bool.false_ne_true hc.1)]
    rfl
  | true =>
    by_cases hs : store = []
    · subst hs
      refine ⟨rfl, ?_⟩
      rw [if_neg (fun hc => hc.2 rfl)]
      rfl
    · have hne := sortByOrdinal_ne_nil hs
      refine ⟨rfl, ?_⟩
      show modeOf (initRunState (freshMatcher sr fz) store true) = _
      unfold initRunState
      rw [if_pos rfl, if_neg hne, if_pos ⟨rfl, hs⟩]
      rfl

/-! Error model for C7: a verse row whose `text` column is NULL/malformed.
`normalize_text(None)` raises (`None.lower()`), so both `exact_match` and
`fuzzy_match` raise on such a row; the candidate loop of lines 161-183 has
no `try`/`except`, so the exception propagates out of `find_best_match`.
`scanCandidatesE` is that loop with the propagation made explicit in
`Except`; its only guard is the ordinal-range skip of line 162. -/

/-- A verse row whose `text` may be NULL (`none`). -/
structure VerseN where
  version : List Char
  book : List Char
  chapter : Nat
  verse : Nat
  text : Option (List Char)
  embedding_index : Nat
deriving DecidableEq, Repr

/-- The candidate loop of lines 161-183 over possibly malformed rows: a
`none` text makes the scoring raise, which aborts the whole loop. -/
def scanCandidatesE (usingEmb : Bool) (fz : List Char → List Char → ℚ)
    (cache : List VerseN) (q : List Char) :
    List (Nat × ℚ) → Option VerseN × ℚ → Except Unit (Option VerseN × ℚ)
  | [], acc => Except.ok acc
  | (idx, sem) :: rest, (bv, bs) =>
    if h : idx < cache.length then
      match (cache.get ⟨idx, h⟩).text with
      | none => Except.error ()
      | some t =>
        let e := exactMatch q t
        let f := if normalizeText q = [] ∨ normalizeText t = [] then 0
          else fz (normalizeText q) (normalizeText t)
        let c := combinedScore usingEmb e f sem
        if c > bs then
          scanCandidatesE usingEmb fz cache q rest (some (cache.get ⟨idx, h⟩), c)
        else scanCandidatesE usingEmb fz cache q rest (bv, bs)
    else scanCandidatesE usingEmb fz cache q rest (bv, bs)

/-- Modelled from the spec: §7's required behaviour — an unexpected failure
inside a single candidate's scoring is logged and that candidate skipped,
the loop continuing with the remaining candidates. -/
def scanCandidatesSpec (usingEmb : Bool) (fz : List Char → List Char → ℚ)
    (cache : List VerseN) (q : List Char) :
    List (Nat × ℚ) → Option VerseN × ℚ → Option VerseN × ℚ
  | [], acc => acc
  | (idx, sem) :: rest, (bv, bs) =>
    if h : idx < cache.length then
      match (cache.get ⟨idx, h⟩).text with
      | none => scanCandidatesSpec usingEmb fz cache q rest (bv, bs)
      | some t =>
        let e := exactMatch q t
        let f := if normalizeText q = [] ∨ normalizeText t = [] then 0
          else fz (normalizeText q) (normalizeText t)
        let c := combinedScore usingEmb e f sem
        if c > bs then
          scanCandidatesSpec usingEmb fz cache q rest (some (cache.get ⟨idx, h⟩), c)
        else scanCandidatesSpec usingEmb fz cache q rest (bv, bs)
    else scanCandidatesSpec usingEmb fz cache q rest (bv, bs)

deriving instance DecidableEq for Except

/-- A NULL-text row. -/
def badRow : VerseN := ⟨"KJV".data, "John".data, 3, 16, none, 0⟩

/-- A well-formed row whose text matches the test query exactly. -/
def goodRow : VerseN :=
  ⟨"KJV".data, "John".data, 3, 17, some "hello world stuff".data, 1⟩

/-- C7 counterexample: with a malformed candidate first in the list, the
code's loop aborts with the propagated failure, while the behaviour the
claim describes (skip and keep scoring) would still have scored the
remaining candidate and produced a result. -/
theorem c7_counterexample :
    scanCandidatesE false zeroFZ [badRow, goodRow] "hello world stuff".data
      [(0, 0), (1, 0)] (none, 0) = Except.error () ∧
    scanCandidatesSpec false zeroFZ [badRow, goodRow] "hello world stuff".data
      [(0, 0), (1, 0)] (none, 0) = (some goodRow, 3/10) := by
  with_unfolding_all decide

/-- C7 (amended): the loop of `find_best_match` has no per-candidate
handler — it fails (the exception propagates, aborting the whole
resolution) exactly when some in-range candidate's text is malformed; only
out-of-range ordinals are skipped. -/
theorem c7_amended_error_propagation (u : Bool) (fz : List Char → List Char → ℚ)
    (cache : List VerseN) (q : List Char) :
    ∀ (cands : List (Nat × ℚ)) (bv : Option VerseN) (bs : ℚ),
      scanCandidatesE u fz cache q cands (bv, bs) = Except.error () ↔
        ∃ idx sem, (idx, sem) ∈ cands ∧ ∃ h : idx < cache.length,
          (cache.get ⟨idx, h⟩).text = none := by
  intro cands
  induction cands with
  | nil =>
    intro bv bs
    constructor
    · intro h
      exact Except.noConfusion h
    · rintro ⟨idx, sem, hmem, _⟩
      simp at hmem
  | cons p rest ih =>
    intro bv bs
    obtain ⟨idx, sem⟩ := p
    by_cases hlt : idx < cache.length
    · cases htext : (cache.get ⟨idx, hlt⟩).text with
      | none =>
        constructor
        · intro _
          exact ⟨idx, sem, List.mem_cons_self _ _, hlt, htext⟩
        · intro _
          show scanCandidatesE u fz cache q ((idx, sem) :: rest) (bv, bs) =
            Except.error ()
          simp only [scanCandidatesE]
          rw [dif_pos hlt, htext]
      | some t =>
        have hstep : scanCandidatesE u fz cache q ((idx, sem) :: rest) (bv, bs) =
            (if combinedScore u (exactMatch q t)
                (if normalizeText q = [] ∨ normalizeText t = [] then 0
                 else fz (normalizeText q) (normalizeText t)) sem > bs then
              scanCandidatesE u fz cache q rest
                (some (cache.get ⟨idx, hlt⟩),
                  combinedScore u (exactMatch q t)
                    (if normalizeText q = [] ∨ normalizeText t = [] then 0
                     else fz (normalizeText q) (normalizeText t)) sem)
            else scanCandidatesE u fz cache q rest (bv, bs)) := by
          simp only [scanCandidatesE]
          rw [dif_pos hlt, htext]
        have key : ∀ acc : Option VerseN × ℚ,
            (scanCandidatesE u fz cache q rest acc = Except.error () ↔
              ∃ i se, (i, se) ∈ (idx, sem) :: rest ∧ ∃ hh : i < cache.length,
                (cache.get ⟨i, hh⟩).text = none) := by
          intro acc
          obtain ⟨abv, abs⟩ := acc
          constructor
          · intro h
            obtain ⟨i, se, hm, hh, ht⟩ := (ih abv abs).mp h
            exact ⟨i, se, List.mem_cons_of_mem _ hm, hh, ht⟩
          · rintro ⟨i, se, hm, hh, ht⟩
            rcases List.mem_cons.mp hm with hhead | htail
            · obtain ⟨hi, hse⟩ := Prod.mk.injEq _ _ _ _ ▸ hhead
              subst hi
              have hcontra : some t = none := htext.symm.trans ht
              cases hcontra
            · exact (ih abv abs).mpr ⟨i, se, htail, hh, ht⟩
        rw [hstep]
        by_cases hgt : combinedScore u (exactMatch q t)
            (if normalizeText q = [] ∨ normalizeText t = [] then 0
             else fz (normalizeText q) (normalizeText t)) sem > bs
        · rw [if_pos hgt]
          exact key _
        · rw [if_neg hgt]
          exact key _
    · have hred : scanCandidatesE u fz cache q ((idx, sem) :: rest) (bv, bs) =
          scanCandidatesE u fz cache q rest (bv, bs) := by
        simp only [scanCandidatesE]
        rw [dif_neg hlt]
      rw [hred]
      constructor
      · intro h
        obtain ⟨i, se, hm, hh, ht⟩ := (ih bv bs).mp h
        exact ⟨i, se, List.mem_cons_of_mem _ hm, hh, ht⟩
      · rintro ⟨i, se, hm, hh, ht⟩
        rcases List.mem_cons.mp hm with hhead | htail
        · obtain ⟨hi, _⟩ := Prod.mk.injEq _ _ _ _ ▸ hhead
          subst hi
          exact absurd hh hlt
        · exact (ih bv bs).mpr ⟨i, se, htail, hh, ht⟩

/-- Witness for C7 (amended): the iff at the two-row scenario. -/
theorem c7_witness :
    scanCandidatesE false zeroFZ [badRow, goodRow] "hello world stuff".data
        [(0, 0), (1, 0)] (none, 0) = Except.error () ↔
      ∃ idx sem, (idx, sem) ∈ [((0 : Nat), (0 : ℚ)), (1, 0)] ∧
        ∃ h : idx < ([badRow, goodRow] : List VerseN).length,
          (([badRow, goodRow] : List VerseN).get ⟨idx, h⟩).text = none :=
  c7_amended_error_propagation false zeroFZ [badRow, goodRow]
    "hello world stuff".data [(0, 0), (1, 0)] none 0

/-- C8 counterexample: a store whose row order disagrees with the ordinals
(rows [ordinal 1, ordinal 0]).  The lazy rebuild (`SELECT` without
`ORDER BY`, lines 147-150) loads the rows in store order, so cache position
0 holds the entry with ordinal 1 — not ordinal 0 as the claim states for
every build. -/
theorem c8_counterexample :
    ((findBestMatch mC9 [nivGenesis, kjvGenesis] "walking through the valley".data
        0.6 none).1.versesCache = [nivGenesis, kjvGenesis]) ∧
    (((findBestMatch mC9 [nivGenesis, kjvGenesis] "walking through the valley".data
        0.6 none).1.versesCache.get? 0).map Verse.embedding_index = some 1) ∧
    (1 : Nat) ≠ 0 := by
  with_unfolding_all decide

/-- C8 (amended): the wholesale build during `initialize` sorts the store
by ordinal — so with dense ordinals the entry at cache position `i` has
ordinal `i` — while the lazy rebuild at query time issues an unordered
`SELECT` and stores the rows in store order, giving no position-ordinal
alignment in general. -/
theorem c8_amended_cache_builds :
    (∀ (sr : List Char → List (Nat × ℚ)) (fz : List Char → List Char → ℚ)
        (store : List Verse),
      ((initRun (freshMatcher sr fz) store true).1).versesCache =
        sortByOrdinal store) ∧
    (∀ (m : Matcher) (store : List Verse),
      (rebuildCache m store).versesCache = store) ∧
    (∀ (store : List Verse) (N i : ℕ) (v : Verse),
      (store.map Verse.embedding_index).Perm (List.range N) →
      (sortByOrdinal store).get? i = some v → v.embedding_index = i) := by
  refine ⟨?_, fun m store => rfl, fun store N i v hperm h => sortByOrdinal_get? hperm h⟩
  intro sr fz store
  show (initRunState (freshMatcher sr fz) store true).versesCache = sortByOrdinal store
  unfold initRunState
  rw [if_pos rfl]
  by_cases hs : sortByOrdinal store = []
  · rw [if_pos hs]
    rfl
  · rw [if_neg hs]
    rfl

/-- Witness for C8 (amended): sorting the misordered two-row store puts the
ordinal-0 entry at position 0. -/
theorem c8_witness : kjvGenesis.embedding_index = 0 :=
  c8_amended_cache_builds.2.2 [nivGenesis, kjvGenesis] 2 0 kjvGenesis
    (by decide) (by decide)

/-- C10: the text normalizer is idempotent — for every string `s`,
`normalize_text(normalize_text(s)) = normalize_text(s)`, so text already in
canonical form is left unchanged by re-normalization. -/
theorem c10_normalize_text_idempotent :
    ∀ s : List Char, normalizeText (normalizeText s) = normalizeText s :=
  normalizeText_idem

/-- C5 counterexample: the claim says every character that is not
alphanumeric or whitespace is replaced by a space, but the code's regex
class `[^\w\s]` keeps the underscore (`\w` contains it), so
`normalize_text("a_b")` is `"a_b"`, not the `"a b"` the claim requires. -/
theorem c5_counterexample :
    normalizeTextClaimed "a_b".data = "a b".data ∧
    normalizeText "a_b".data = "a_b".data ∧
    normalizeText "a_b".data ≠ normalizeTextClaimed "a_b".data := by decide

/-- C5 (amended): the normalizer lowercases, replaces every character that
is neither a word character (alphanumeric or underscore) nor whitespace by
a single space, collapses whitespace runs and trims; the claim's two
examples hold, the underscore is kept, and every output character is a
lowercase-stable word character or a single space. -/
theorem c5_amended_normalizer :
    normalizeText "  Multiple   spaces ".data = "multiple spaces".data ∧
    normalizeText "God's love".data = "god s love".data ∧
    normalizeText "a_b".data = "a_b".data ∧
    ∀ (s : List Char), ∀ c ∈ normalizeText s,
      (isWordChar c = true ∨ c = ' ') ∧ Char.toLower c = c := by
  refine ⟨by decide, by decide, by decide, ?_⟩
  intro s c hc
  rcases goodChar_of_mem_normalizeText hc with h | ⟨h1, h2⟩
  · subst h
    exact ⟨Or.inr rfl, by decide⟩
  · exact ⟨Or.inl h1, h2⟩

/-- Witness for C5 (amended) at a concrete character of a concrete
normalization. -/
theorem c5_amended_witness :
    (isWordChar 'm' = true ∨ 'm' = ' ') ∧ Char.toLower 'm' = 'm' :=
  c5_amended_normalizer.2.2.2 "  Multiple   spaces ".data 'm' (by decide)

/-- C4: `exact_match` normalizes both strings and then follows the claim's
chain — 0 when either normalized string is empty, coverage when the query
is contained in the text, the `0.9`-penalized reverse ratio when the text
is contained in the query, 0 otherwise. -/
theorem c4_exact_match_cases (q t : List Char) :
    ((normalizeText q = [] ∨ normalizeText t = []) → exactMatch q t = 0) ∧
    (pyIn (normalizeText q) (normalizeText t) = true →
      ¬(normalizeText q = [] ∨ normalizeText t = []) →
      exactMatch q t =
        ((normalizeText q).length : ℚ) / ((normalizeText t).length : ℚ)) ∧
    (pyIn (normalizeText q) (normalizeText t) = false →
      pyIn (normalizeText t) (normalizeText q) = true →
      ¬(normalizeText q = [] ∨ normalizeText t = []) →
      exactMatch q t =
        ((normalizeText t).length : ℚ) / ((normalizeText q).length : ℚ) * 0.9) ∧
    (pyIn (normalizeText q) (normalizeText t) = false →
      pyIn (normalizeText t) (normalizeText q) = false →
      exactMatch q t = 0) := by
  have e : exactMatch q t =
      (if normalizeText q = [] ∨ normalizeText t = [] then (0 : ℚ)
       else if pyIn (normalizeText q) (normalizeText t) then
         ((normalizeText q).length : ℚ) / ((normalizeText t).length : ℚ)
       else if pyIn (normalizeText t) (normalizeText q) then
         ((normalizeText t).length : ℚ) / ((normalizeText q).length : ℚ) * 0.9
       else 0) := rfl
  refine ⟨?_, ?_, ?_, ?_⟩
  · intro h
    rw [e, if_pos h]
  · intro h1 h2
    rw [e, if_neg h2, if_pos h1]
  · intro h1 h2 h3
    rw [e, if_neg h3, if_neg (by simp [h1]), if_pos h2]
  · intro h1 h2
    rw [e]
    by_cases hz : normalizeText q = [] ∨ normalizeText t = []
    · rw [if_pos hz]
    · rw [if_neg hz, if_neg (by simp [h1]), if_neg (by simp [h2])]

/-- Witness for C4 at the spec's own test pair (the contained-query case). -/
theorem c4_witness :
    exactMatch "God so loved the world".data
        "For God so loved the world, that he gave his only begotten Son".data =
      ((normalizeText "God so loved the world".data).length : ℚ) /
        ((normalizeText
          "For God so loved the world, that he gave his only begotten Son".data).length : ℚ) :=
  (c4_exact_match_cases _ _).2.1 (by decide) (by decide)
example : exactMatch "God so loved the world".data
    "For God so loved the world, that he gave his only begotten Son".data = 22 / 61 := by
  with_unfolding_all decide

end ScriptureSync
